import Mathlib

/-!
Verification of the periodic-gate Monte Carlo simulator.

The source program models periodic ON/OFF gates over `f64` values.  We embed
the numeric computations over `ℚ`: all values the program manipulates in the
properties below (integer-valued durations, halves, ratios) are exactly
representable, and `ℚ` gives the idealized real-number semantics the
specification describes.  Randomness (the thread-local RNG) is embedded as
explicit parameters: an integer draw for each `gen_range` call and a rational
draw for each `rand::random` call.
-/

namespace Interferon

/-- Truncation toward zero, the semantics of Rust's float-to-integer
conversion and the integer part used by the float remainder operator. -/
def ratTrunc (q : ℚ) : ℤ := if 0 ≤ q then ⌊q⌋ else ⌈q⌉

/-- Rust's `%` on floats: truncated remainder, `a - b * trunc (a / b)`. -/
def fmod (a b : ℚ) : ℚ := a - b * (ratTrunc (a / b) : ℚ)

/-- Rust's `f64::rem_euclid`: `let r = self % rhs; if r < 0 { r + rhs.abs() } else { r }`. -/
def remEuclid (a b : ℚ) : ℚ :=
  let r := fmod a b
  if r < 0 then r + |b| else r

/-- The `Gate` struct: a periodic pulse source (`high_duration` seconds ON,
`low_duration` seconds OFF, phase offset `start_time`). -/
structure Gate where
  high_duration : ℚ
  low_duration : ℚ
  start_time : ℚ
deriving DecidableEq

/-- `Gate::period`: `self.low_duration + self.high_duration`. -/
def Gate.period (g : Gate) : ℚ := g.low_duration + g.high_duration

/-- `Gate::calculate_value`: phase is `(t - start_time).rem_euclid(period).abs()`;
the gate is ON (value 1) iff `phase < high_duration`. -/
def Gate.calculate_value (g : Gate) (t : ℚ) : ℚ :=
  let period := g.period
  let phase := |remEuclid (t - g.start_time) period|
  if phase < g.high_duration then 1 else 0

/-- `Gate::new_random_periodic`.  The RNG outcomes are passed explicitly:
`p` is the integer produced by `gen_range(10..max_period as i32)` and
`r` is the uniform draw of `rand::random::<f64>()` in `[0,1)`. -/
def Gate.new_random_periodic (p : ℤ) (r : ℚ) (high_ratio : ℚ) : Gate :=
  let period : ℚ := (p : ℚ)
  let low_duration : ℚ := (1 - high_ratio) * period
  let high_duration : ℚ := period - low_duration
  let start_time : ℚ := r * period
  { high_duration := (⌈high_duration⌉ : ℤ)
    low_duration := (⌈low_duration⌉ : ℤ)
    start_time := (⌈start_time⌉ : ℤ) }

/-- `Gate::randomize_start_time`: every gate's `start_time` is overwritten with
`gen_range(0..100000) as f64 * period / 100000`.  The stream `draws` supplies
one RNG outcome per gate (reduced mod 100000, the range of `gen_range`). -/
def Gate.randomize_start_time (draws : ℕ → ℕ) : List Gate → List Gate
  | [] => []
  | g :: gs =>
      { g with start_time := ((draws 0 % 100000 : ℕ) : ℚ) * g.period / 100000 }
        :: Gate.randomize_start_time (fun n => draws (n + 1)) gs

/-- The maximum-selection fold shared by `max_by` on Rust iterators (over a
totally ordered carrier the `partial_cmp ... unwrap_or(Less)` comparator is the
usual order, and an empty iterator yields `None`). -/
def listMax : List ℚ → Option ℚ
  | [] => none
  | x :: xs =>
    match listMax xs with
    | none => some x
    | some m => some (if x < m then m else x)

/-- `Gate::max_period`: maximum of the periods, `0.0` for an empty slice. -/
def Gate.max_period (gates : List Gate) : ℚ :=
  (listMax (gates.map (fun v => v.period))).getD 0

/-- `Gate::evaluate_max_on_range`: per sample point, sum `calculate_value`
over the gates; return the maximum sum, `0.0` when there are no points. -/
def Gate.evaluate_max_on_range (gates : List Gate) (points : List ℚ) : ℚ :=
  (listMax (points.map (fun tt => (gates.map (fun v => v.calculate_value tt)).sum))).getD 0

/-- The sample-point loop of `run_gates`:
`loop { if t >= stop { break }; points.push(t); t += 0.5 }`
started at `t` with `stop = max_period * 2.0`. -/
def sampleLoop (stop t : ℚ) : List ℚ :=
  if h : t ≥ stop then [] else t :: sampleLoop stop (t + 1 / 2)
termination_by (⌈(stop - t) * 2⌉).toNat
decreasing_by
  push_neg at h
  have h2 : (stop - (t + 1 / 2)) * 2 = (stop - t) * 2 - 1 := by ring
  have h3 : (⌈(stop - (t + 1 / 2)) * 2⌉ : ℤ) = ⌈(stop - t) * 2⌉ - 1 := by
    rw [h2]
    exact_mod_cast Int.ceil_sub_int ((stop - t) * 2) 1
  have h4 : (0 : ℤ) < ⌈(stop - t) * 2⌉ := Int.ceil_pos.mpr (by linarith)
  omega

/-- The sample points of `run_gates`: the loop above from `max_period`. -/
def run_gates_points (gates : List Gate) : List ℚ :=
  sampleLoop (Gate.max_period gates * 2) (Gate.max_period gates)

/-- The trial loop of `run_gates`: each iteration re-randomizes all start
times in place (overwriting the previous trial's state) and evaluates the
peak overlap on the fixed point set.  `draws i` is the RNG stream consumed
by trial `i`; the returned list collects the per-trial peak values. -/
def run_gates_trials (points : List ℚ) : (ℕ → ℕ → ℕ) → ℕ → List Gate → List ℚ
  | _, 0, _ => []
  | draws, n + 1, gates =>
    let gates2 := Gate.randomize_start_time (draws 0) gates
    Gate.evaluate_max_on_range gates2 points
      :: run_gates_trials points (fun i => draws (i + 1)) n gates2

/-- Peak-overlap values produced by `run_gates` for a scenario: the point set
is computed once, before the trial loop. -/
def run_gates_values (gates : List Gate) (trials : ℕ) (draws : ℕ → ℕ → ℕ) : List ℚ :=
  run_gates_trials (run_gates_points gates) draws trials gates

/-- `to_drop` in `run_with_coherency`: `(gates.len() as f64 * percentage) as usize`
(float-to-`usize` conversion truncates toward zero and saturates at 0). -/
def coherency_to_drop (len : ℕ) (percentage : ℚ) : ℕ :=
  (ratTrunc ((len : ℚ) * percentage)).toNat

/-- The append loop of `run_with_coherency`: for each of the `n` groups, one
fresh random gate (`wave i`, RNG outcome passed explicitly) is duplicated
`per_group` times and appended. -/
def coherent_append (wave : ℕ → Gate) (per_group : ℕ) : ℕ → List Gate
  | 0 => []
  | n + 1 => coherent_append wave per_group n ++ List.replicate per_group (wave n)

/-- The population transformation of `run_with_coherency`.  Both panic paths
are modelled as `none`: the unsigned subtraction `gates.len() - to_drop`
underflows when `to_drop` exceeds the length (checked first, at the
`truncate` call), and the integer division `to_drop / groups_count` panics
when `groups_count = 0` (checked second, in source order). -/
def run_with_coherency_population (gates : List Gate) (percentage : ℚ)
    (groups_count : ℕ) (wave : ℕ → Gate) : Option (List Gate) :=
  let to_drop := coherency_to_drop gates.length percentage
  if to_drop ≤ gates.length then
    let kept := gates.take (gates.length - to_drop)
    if groups_count = 0 then none
    else
      let pg := to_drop / groups_count
      let per_group := if pg = 0 then 1 else pg
      some (kept ++ coherent_append wave per_group groups_count)
  else none

/-- Ceiling in terms of floor, letting numeric evaluation go through the
floor-computing extension. -/
theorem ceil_eq_neg_floor (a : ℚ) : ⌈a⌉ = -⌊-a⌋ := by simp [Int.floor_neg]

/-- For a positive modulus, the Euclidean remainder is the scaled fractional
part of the quotient. -/
theorem remEuclid_eq_fract (a b : ℚ) (hb : 0 < b) :
    remEuclid a b = b * Int.fract (a / b) := by
  have hb0 : b ≠ 0 := ne_of_gt hb
  have habs : |b| = b := abs_of_pos hb
  have hdiv : a = b * (a / b) := by field_simp
  have hfr2 : a - b * (⌊a / b⌋ : ℚ) = b * Int.fract (a / b) := by
    rw [← Int.self_sub_floor (a / b)]
    nth_rewrite 1 [hdiv]
    ring
  simp only [remEuclid, fmod, ratTrunc]
  rcases le_or_lt 0 (a / b) with hx | hx
  · rw [if_pos hx, hfr2,
      if_neg (not_lt.mpr (mul_nonneg hb.le (Int.fract_nonneg _)))]
  · rw [if_neg (not_le.mpr hx)]
    rcases eq_or_ne (Int.fract (a / b)) 0 with hfr | hfr
    · have hfl : (⌊a / b⌋ : ℚ) = a / b := by
        have h2 := Int.self_sub_floor (a / b)
        rw [hfr] at h2
        linarith
      have hceq : ⌈a / b⌉ = ⌊a / b⌋ := by
        have h3 : (a / b : ℚ) ≤ (⌊a / b⌋ : ℤ) := le_of_eq hfl.symm
        have h4 := Int.ceil_le.mpr h3
        have h5 := Int.floor_le_ceil (a / b)
        omega
      have hval : a - b * (⌈a / b⌉ : ℚ) = 0 := by
        rw [hceq, hfl]
        field_simp
      rw [hval, if_neg (by norm_num), hfr, mul_zero]
    · have hceil : ⌈a / b⌉ = ⌊a / b⌋ + 1 := by
        rcases lt_or_eq_of_le (Int.ceil_le_floor_add_one (a / b)) with h | h
        · exfalso
          have h2 : ⌈a / b⌉ ≤ ⌊a / b⌋ := by omega
          have h3 : (a / b : ℚ) ≤ (⌊a / b⌋ : ℚ) :=
            le_trans (Int.le_ceil _) (by exact_mod_cast h2)
          have h4 : (⌊a / b⌋ : ℚ) ≤ a / b := Int.floor_le _
          have h5 := Int.self_sub_floor (a / b)
          exact hfr (by linarith)
        · exact h
      have hval : a - b * (⌈a / b⌉ : ℚ) = b * (Int.fract (a / b) - 1) := by
        have h6 : (⌈a / b⌉ : ℚ) = (⌊a / b⌋ : ℚ) + 1 := by
          rw [hceil]
          push_cast
          ring
        rw [h6]
        have : a - b * ((⌊a / b⌋ : ℚ) + 1) = (a - b * (⌊a / b⌋ : ℚ)) - b := by ring
        rw [this, hfr2]
        ring
      have hlt : b * (Int.fract (a / b) - 1) < 0 :=
        mul_neg_of_pos_of_neg hb (by linarith [Int.fract_lt_one (a / b)])
      rw [hval, if_pos hlt, habs]
      ring

/-- For a positive modulus the remainder is nonnegative. -/
theorem remEuclid_nonneg (a b : ℚ) (hb : 0 < b) : 0 ≤ remEuclid a b := by
  rw [remEuclid_eq_fract a b hb]
  exact mul_nonneg hb.le (Int.fract_nonneg _)

/-- For a positive modulus the remainder is below the modulus. -/
theorem remEuclid_lt (a b : ℚ) (hb : 0 < b) : remEuclid a b < b := by
  rw [remEuclid_eq_fract a b hb]
  calc b * Int.fract (a / b) < b * 1 :=
        (mul_lt_mul_left hb).mpr (Int.fract_lt_one _)
    _ = b := mul_one b

/-- Shifting the argument by the modulus leaves the remainder unchanged. -/
theorem remEuclid_add_period (a b : ℚ) (hb : 0 < b) :
    remEuclid (a + b) b = remEuclid a b := by
  have hb0 : b ≠ 0 := ne_of_gt hb
  rw [remEuclid_eq_fract _ _ hb, remEuclid_eq_fract _ _ hb]
  have hq : (a + b) / b = a / b + (1 : ℤ) := by
    push_cast
    field_simp
  rw [hq, Int.fract_add_int]

/-- For a positive period the absolute value in `calculate_value` is the
identity: the gate's value is decided by the Euclidean remainder alone. -/
theorem calculate_value_eq (g : Gate) (t : ℚ) (hp : 0 < g.period) :
    g.calculate_value t =
      if remEuclid (t - g.start_time) g.period < g.high_duration then 1 else 0 := by
  simp only [Gate.calculate_value]
  rw [abs_of_nonneg (remEuclid_nonneg _ _ hp)]

/-- Every gate value is 0 or 1. -/
theorem calculate_value_zero_or_one (g : Gate) (t : ℚ) :
    g.calculate_value t = 0 ∨ g.calculate_value t = 1 := by
  simp only [Gate.calculate_value]
  by_cases h : |remEuclid (t - g.start_time) g.period| < g.high_duration
  · right
    rw [if_pos h]
  · left
    rw [if_neg h]

/-- The running-maximum fold bounds every member of the list. -/
theorem listMax_le_of_forall {l : List ℚ} {c : ℚ} (h : ∀ x ∈ l, x ≤ c) :
    ∀ m, listMax l = some m → m ≤ c := by
  induction l with
  | nil => intro m hm; simp [listMax] at hm
  | cons x xs ih =>
    intro m hm
    simp only [listMax] at hm
    cases h2 : listMax xs with
    | none =>
      rw [h2] at hm
      simp only [Option.some.injEq] at hm
      exact hm ▸ h x (List.mem_cons_self x xs)
    | some m2 =>
      rw [h2] at hm
      simp only [Option.some.injEq] at hm
      have hm2 : m2 ≤ c := ih (fun y hy => h y (List.mem_cons_of_mem x hy)) m2 h2
      have hx : x ≤ c := h x (List.mem_cons_self x xs)
      rw [← hm]
      split <;> assumption

/-- Every member of the list is bounded by the running maximum. -/
theorem le_listMax_of_mem {l : List ℚ} {x : ℚ} (hx : x ∈ l) :
    ∃ m, listMax l = some m ∧ x ≤ m := by
  induction l with
  | nil => cases hx
  | cons y ys ih =>
    rcases List.mem_cons.mp hx with h | h
    · cases h2 : listMax ys with
      | none => exact ⟨y, by simp [listMax, h2], le_of_eq h⟩
      | some m2 =>
        refine ⟨if y < m2 then m2 else y, by simp [listMax, h2], ?_⟩
        subst h
        split
        · exact le_of_lt (by assumption)
        · exact le_rfl
    · obtain ⟨m2, hm2, hxm2⟩ := ih h
      refine ⟨if y < m2 then m2 else y, by simp [listMax, hm2], ?_⟩
      split
      · exact hxm2
      · exact le_trans hxm2 (not_lt.mp (by assumption))

/-- A nonempty list all of whose members are `c` has running maximum `c`. -/
theorem listMax_const {c : ℚ} : ∀ {l : List ℚ}, l ≠ [] → (∀ x ∈ l, x = c) →
    listMax l = some c := by
  intro l
  induction l with
  | nil => intro h; exact absurd rfl h
  | cons x xs ih =>
    intro _ h
    rcases eq_or_ne xs [] with he | he
    · subst he
      simp [listMax, h x (List.mem_cons_self x [])]
    · have h2 := ih he (fun y hy => h y (List.mem_cons_of_mem x hy))
      simp [listMax, h2, h x (List.mem_cons_self x xs)]

/-- The per-point overlap sum is at most the number of gates. -/
theorem sum_calculate_le (gates : List Gate) (t : ℚ) :
    (gates.map (fun g => g.calculate_value t)).sum ≤ (gates.length : ℚ) := by
  induction gates with
  | nil => simp
  | cons g gs ih =>
    simp only [List.map_cons, List.sum_cons, List.length_cons]
    have h1 : g.calculate_value t ≤ 1 := by
      rcases calculate_value_zero_or_one g t with h | h <;> rw [h] <;> norm_num
    push_cast
    linarith

/-- When every gate is ON, the per-point overlap sum is the number of gates. -/
theorem sum_calculate_all_on (gates : List Gate) (t : ℚ)
    (h : ∀ g ∈ gates, g.calculate_value t = 1) :
    (gates.map (fun g => g.calculate_value t)).sum = (gates.length : ℚ) := by
  induction gates with
  | nil => simp
  | cons g gs ih =>
    simp only [List.map_cons, List.sum_cons, List.length_cons]
    rw [h g (List.mem_cons_self g gs),
      ih (fun g2 hg2 => h g2 (List.mem_cons_of_mem g hg2))]
    push_cast
    ring

example : remEuclid 15 10 = 5 := by norm_num [remEuclid, fmod, ratTrunc]
example : remEuclid (-3) 10 = 7 := by
  norm_num [remEuclid, fmod, ratTrunc, ceil_eq_neg_floor]
example : (Gate.mk 5 5 0).calculate_value 15 = 0 := by
  norm_num [Gate.calculate_value, Gate.period, remEuclid, fmod, ratTrunc]
example : (Gate.mk 5 5 0).calculate_value 10 = 1 := by
  norm_num [Gate.calculate_value, Gate.period, remEuclid, fmod, ratTrunc]
example : (Gate.mk 1 9 0).calculate_value (1/2) = 1 := by
  norm_num [Gate.calculate_value, Gate.period, remEuclid, fmod, ratTrunc, abs_of_nonneg]
example : (Gate.mk 1 9 0).calculate_value 5 = 0 := by
  norm_num [Gate.calculate_value, Gate.period, remEuclid, fmod, ratTrunc]
example : (Gate.mk 1 9 0).calculate_value (21/2) = 1 := by
  norm_num [Gate.calculate_value, Gate.period, remEuclid, fmod, ratTrunc, abs_of_nonneg]
example : coherency_to_drop 1 (3/2) = 1 := by
  norm_num [coherency_to_drop, ratTrunc]
example : (run_with_coherency_population [Gate.mk 5 5 0] (3/2) 1
    (fun _ => Gate.mk 5 5 0)).isSome = true := by
  norm_num [run_with_coherency_population, coherency_to_drop, ratTrunc]

/-- C1: for every gate with positive period and every time `t` (including `t`
before `start_time`), the phase `(t - start_time) mod period` computed with
Euclidean modulo lies in `[0, period)`, and `calculate_value t` returns exactly
1 when the phase is in `[0, high_duration)` and exactly 0 when the phase is in
`[high_duration, period)`. -/
theorem calculate_value_phase_spec (g : Gate) (t : ℚ) (hp : 0 < g.period) :
    (0 ≤ remEuclid (t - g.start_time) g.period ∧
      remEuclid (t - g.start_time) g.period < g.period) ∧
    (remEuclid (t - g.start_time) g.period < g.high_duration →
      g.calculate_value t = 1) ∧
    (g.high_duration ≤ remEuclid (t - g.start_time) g.period →
      g.calculate_value t = 0) := by
  refine ⟨⟨remEuclid_nonneg _ _ hp, remEuclid_lt _ _ hp⟩, ?_, ?_⟩
  · intro h
    rw [calculate_value_eq g t hp, if_pos h]
  · intro h
    rw [calculate_value_eq g t hp, if_neg (not_lt.mpr h)]

/-- Witness for C1: the gate with `high_duration = 1`, `low_duration = 9`,
`start_time = 0` has positive period, its phase at `t = 1/2` is below the high
duration, and the theorem instantiated there yields `calculate_value = 1`. -/
theorem calculate_value_phase_spec_witness :
    0 < (Gate.mk 1 9 0).period ∧
    remEuclid ((1 : ℚ) / 2 - (Gate.mk 1 9 0).start_time) (Gate.mk 1 9 0).period
      < (Gate.mk 1 9 0).high_duration ∧
    (Gate.mk 1 9 0).calculate_value (1 / 2) = 1 :=
  ⟨by norm_num [Gate.period],
   by norm_num [Gate.period, remEuclid, fmod, ratTrunc],
   (calculate_value_phase_spec (Gate.mk 1 9 0) (1 / 2)
      (by norm_num [Gate.period])).2.1
     (by norm_num [Gate.period, remEuclid, fmod, ratTrunc])⟩

/-- C3: for every gate with positive period, `calculate_value` is periodic:
its value at `t` equals its value at `t + period`. -/
theorem calculate_value_periodic (g : Gate) (t : ℚ) (hp : 0 < g.period) :
    g.calculate_value t = g.calculate_value (t + g.period) := by
  rw [calculate_value_eq g t hp, calculate_value_eq g _ hp]
  have h : t + g.period - g.start_time = t - g.start_time + g.period := by ring
  rw [h, remEuclid_add_period _ _ hp]

/-- Witness for C3: periodicity instantiated at the `1`-ON/`9`-OFF gate and
`t = 1/2`. -/
theorem calculate_value_periodic_witness :
    0 < (Gate.mk 1 9 0).period ∧
    (Gate.mk 1 9 0).calculate_value (1 / 2) =
      (Gate.mk 1 9 0).calculate_value (1 / 2 + (Gate.mk 1 9 0).period) :=
  ⟨by norm_num [Gate.period],
   calculate_value_periodic (Gate.mk 1 9 0) (1 / 2) (by norm_num [Gate.period])⟩

/-- C4: the empty population has `max_period` 0, and `evaluate_max_on_range`
on the empty population over any nonempty sample set returns 0 (no failure). -/
theorem empty_population_spec (points : List ℚ) (hne : points ≠ []) :
    Gate.max_period [] = 0 ∧ Gate.evaluate_max_on_range [] points = 0 := by
  refine ⟨rfl, ?_⟩
  unfold Gate.evaluate_max_on_range
  have hz : ∀ x ∈ points.map
      (fun tt => (([] : List Gate).map (fun v => v.calculate_value tt)).sum), x = 0 := by
    intro x hx
    rcases List.mem_map.mp hx with ⟨t, _, ht⟩
    simpa using ht.symm
  have hne2 : points.map
      (fun tt => (([] : List Gate).map (fun v => v.calculate_value tt)).sum) ≠ [] := by
    simpa using hne
  rw [listMax_const hne2 hz]
  rfl

/-- Witness for C4: the singleton sample set `[1]`. -/
theorem empty_population_spec_witness :
    ([(1 : ℚ)] ≠ []) ∧
    Gate.max_period [] = 0 ∧ Gate.evaluate_max_on_range [] [(1 : ℚ)] = 0 :=
  ⟨by simp, empty_population_spec [(1 : ℚ)] (by simp)⟩

/-- C5: for any population and sample set, no sample point's instantaneous
overlap sum exceeds the population size `n`, `evaluate_max_on_range` returns
at most `n`, and if at some sample point all gates are simultaneously ON then
`evaluate_max_on_range` returns exactly `n`. -/
theorem evaluate_max_bounds (gates : List Gate) (points : List ℚ) :
    (∀ t ∈ points,
      (gates.map (fun g => g.calculate_value t)).sum ≤ (gates.length : ℚ)) ∧
    Gate.evaluate_max_on_range gates points ≤ (gates.length : ℚ) ∧
    ((∃ t ∈ points, ∀ g ∈ gates, g.calculate_value t = 1) →
      Gate.evaluate_max_on_range gates points = (gates.length : ℚ)) := by
  have hall : ∀ x ∈ points.map
      (fun tt => (gates.map (fun v => v.calculate_value tt)).sum),
      x ≤ (gates.length : ℚ) := by
    intro x hx
    rcases List.mem_map.mp hx with ⟨t, _, ht⟩
    exact ht ▸ sum_calculate_le gates t
  have hle : Gate.evaluate_max_on_range gates points ≤ (gates.length : ℚ) := by
    unfold Gate.evaluate_max_on_range
    cases hm : listMax (points.map
        (fun tt => (gates.map (fun v => v.calculate_value tt)).sum)) with
    | none => simpa using (Nat.cast_nonneg gates.length : (0 : ℚ) ≤ gates.length)
    | some m => simpa using listMax_le_of_forall hall m hm
  refine ⟨fun t _ => sum_calculate_le gates t, hle, ?_⟩
  rintro ⟨t, ht, hon⟩
  have hmem : (gates.length : ℚ) ∈ points.map
      (fun tt => (gates.map (fun v => v.calculate_value tt)).sum) :=
    List.mem_map.mpr ⟨t, ht, sum_calculate_all_on gates t hon⟩
  obtain ⟨m, hm, hnm⟩ := le_listMax_of_mem hmem
  have hev : Gate.evaluate_max_on_range gates points = m := by
    unfold Gate.evaluate_max_on_range
    rw [hm]
    rfl
  rw [hev]
  exact le_antisymm (by rw [← hev]; exact hle) hnm

/-- Witness for C5: one gate, sample set `[10]`; the gate is ON at 10, so the
all-ON hypothesis holds and the evaluated maximum equals the population size. -/
theorem evaluate_max_bounds_witness :
    (∃ t ∈ [(10 : ℚ)], ∀ g ∈ [Gate.mk 5 5 0], g.calculate_value t = 1) ∧
    Gate.evaluate_max_on_range [Gate.mk 5 5 0] [(10 : ℚ)]
      = (([Gate.mk 5 5 0] : List Gate).length : ℚ) :=
  ⟨⟨10, by simp, by
      intro g hg
      rcases List.mem_singleton.mp hg with rfl
      norm_num [Gate.calculate_value, Gate.period, remEuclid, fmod, ratTrunc]⟩,
   (evaluate_max_bounds [Gate.mk 5 5 0] [(10 : ℚ)]).2.2
     ⟨10, by simp, by
        intro g hg
        rcases List.mem_singleton.mp hg with rfl
        norm_num [Gate.calculate_value, Gate.period, remEuclid, fmod, ratTrunc]⟩⟩

/-- Under a drop fraction in `[0,1]`, the computed drop count is at most the
population length. -/
theorem coherency_to_drop_le (len : ℕ) (percentage : ℚ)
    (hd0 : 0 ≤ percentage) (hd1 : percentage ≤ 1) :
    coherency_to_drop len percentage ≤ len := by
  unfold coherency_to_drop ratTrunc
  have hx : 0 ≤ (len : ℚ) * percentage := mul_nonneg (Nat.cast_nonneg _) hd0
  rw [if_pos hx]
  have h2 : (len : ℚ) * percentage ≤ (len : ℚ) := by
    nlinarith [Nat.cast_nonneg (α := ℚ) len]
  have h3 : ⌊(len : ℚ) * percentage⌋ ≤ ⌊(len : ℚ)⌋ := Int.floor_mono h2
  have h4 : ⌊(len : ℚ)⌋ = (len : ℤ) := Int.floor_natCast len
  omega

/-- The `if per_group == 0 then 1` adjustment computes a maximum with 1. -/
theorem per_group_eq_max (pg : ℕ) : (if pg = 0 then 1 else pg) = max 1 pg := by
  cases pg with
  | zero => simp
  | succ n =>
    rw [if_neg (Nat.succ_ne_zero n)]
    omega

/-- Total number of gates appended by the coherent-group loop. -/
theorem coherent_append_length (wave : ℕ → Gate) (per_group : ℕ) :
    ∀ n, (coherent_append wave per_group n).length = n * per_group := by
  intro n
  induction n with
  | zero => simp [coherent_append]
  | succ m ih => simp [coherent_append, ih, Nat.succ_mul]

/-- C6: for a starting population of size `P ≥ 1`, a drop percentage `d` in
`[0,1]` and a group count `g ≥ 1`, `run_with_coherency` keeps the first
`P - floor(P*d)` gates and, for each of the `g` groups, appends
`max(1, floor(P*d)/g)` copies of one fresh random gate (integer division);
the resulting population size is `P - floor(P*d) + g * max(1, floor(P*d)/g)`. -/
theorem run_with_coherency_size (gates : List Gate) (percentage : ℚ)
    (groups_count : ℕ) (wave : ℕ → Gate)
    (hP : 1 ≤ gates.length) (hd0 : 0 ≤ percentage) (hd1 : percentage ≤ 1)
    (hg : 1 ≤ groups_count) :
    run_with_coherency_population gates percentage groups_count wave =
      some (gates.take (gates.length - coherency_to_drop gates.length percentage) ++
        coherent_append wave
          (max 1 (coherency_to_drop gates.length percentage / groups_count))
          groups_count) ∧
    Option.map List.length
        (run_with_coherency_population gates percentage groups_count wave) =
      some (gates.length - coherency_to_drop gates.length percentage +
        groups_count *
          max 1 (coherency_to_drop gates.length percentage / groups_count)) := by
  have hdrop := coherency_to_drop_le gates.length percentage hd0 hd1
  have hfirst : run_with_coherency_population gates percentage groups_count wave =
      some (gates.take (gates.length - coherency_to_drop gates.length percentage) ++
        coherent_append wave
          (max 1 (coherency_to_drop gates.length percentage / groups_count))
          groups_count) := by
    simp only [run_with_coherency_population]
    rw [if_pos hdrop, if_neg (by omega : ¬ groups_count = 0), per_group_eq_max]
  refine ⟨hfirst, ?_⟩
  rw [hfirst]
  simp only [Option.map_some', Option.some.injEq, List.length_append,
    List.length_take, coherent_append_length]
  have hmin : min (gates.length - coherency_to_drop gates.length percentage)
      gates.length = gates.length - coherency_to_drop gates.length percentage :=
    min_eq_left (Nat.sub_le _ _)
  rw [hmin, Nat.mul_comm]

/-- Witness for C6: one gate, percentage 1, one group: one gate is dropped and
one fresh gate is duplicated once, giving a population of size 1. -/
theorem run_with_coherency_size_witness :
    (1 ≤ ([Gate.mk 5 5 0] : List Gate).length ∧ (0 : ℚ) ≤ 1 ∧ (1 : ℚ) ≤ 1 ∧
      1 ≤ 1) ∧
    Option.map List.length
        (run_with_coherency_population [Gate.mk 5 5 0] 1 1
          (fun _ => Gate.mk 1 9 0)) =
      some (([Gate.mk 5 5 0] : List Gate).length -
        coherency_to_drop ([Gate.mk 5 5 0] : List Gate).length 1 +
        1 * max 1
          (coherency_to_drop ([Gate.mk 5 5 0] : List Gate).length 1 / 1)) :=
  ⟨⟨by simp, by norm_num, by norm_num, le_rfl⟩,
   (run_with_coherency_size [Gate.mk 5 5 0] 1 1 (fun _ => Gate.mk 1 9 0)
      (by simp) (by norm_num) (by norm_num) le_rfl).2⟩

/-- C10 (amended): with a percentage in `[0,1]` the drop count never exceeds
the population length, so `gates.len() - to_drop` cannot underflow — the
truncation is well-defined — and with a nonzero group count the construction
succeeds; whenever the drop count does exceed the length the subtraction
underflows (panics) before any gates are appended, and for a nonzero group
count that is the only failure: it occurs exactly when
`floor(len * percentage)` exceeds the length — possible for some percentages
above 1 but not all of them.  (A zero group count fails separately, on the
division `to_drop / 0`, whatever the percentage.) -/
theorem run_with_coherency_safety (gates : List Gate) (percentage : ℚ)
    (groups_count : ℕ) (wave : ℕ → Gate) :
    (0 ≤ percentage → percentage ≤ 1 →
      coherency_to_drop gates.length percentage ≤ gates.length ∧
        (1 ≤ groups_count →
          (run_with_coherency_population gates percentage groups_count
            wave).isSome = true)) ∧
    (gates.length < coherency_to_drop gates.length percentage →
      run_with_coherency_population gates percentage groups_count wave =
        none) ∧
    (groups_count = 0 →
      run_with_coherency_population gates percentage groups_count wave =
        none) ∧
    (1 ≤ groups_count →
      (run_with_coherency_population gates percentage groups_count wave =
          none ↔
        gates.length < coherency_to_drop gates.length percentage)) := by
  refine ⟨?_, ?_, ?_, ?_⟩
  · intro h0 h1
    have hd := coherency_to_drop_le gates.length percentage h0 h1
    refine ⟨hd, ?_⟩
    intro hg
    simp only [run_with_coherency_population]
    rw [if_pos hd, if_neg (by omega : ¬ groups_count = 0)]
    rfl
  · intro h
    simp only [run_with_coherency_population]
    rw [if_neg (Nat.not_le.mpr h)]
  · intro hg
    simp only [run_with_coherency_population]
    by_cases h : coherency_to_drop gates.length percentage ≤ gates.length
    · rw [if_pos h, if_pos hg]
    · rw [if_neg h]
  · intro hg
    simp only [run_with_coherency_population]
    by_cases h : coherency_to_drop gates.length percentage ≤ gates.length
    · rw [if_pos h, if_neg (by omega : ¬ groups_count = 0)]
      constructor
      · intro hc
        exact absurd hc (Option.some_ne_none _)
      · intro hc
        exact absurd hc (Nat.not_lt.mpr h)
    · rw [if_neg h]
      constructor
      · intro _
        omega
      · intro _
        rfl

/-- Counterexample for C10 as stated: a nonempty population with percentage
`3/2 > 1` for which the drop count `floor(1 * 3/2) = 1` does not exceed the
length, so the subtraction does not underflow and construction succeeds. -/
theorem run_with_coherency_safety_counterexample :
    (1 : ℚ) < 3 / 2 ∧ ([Gate.mk 5 5 0] : List Gate) ≠ [] ∧
    (run_with_coherency_population [Gate.mk 5 5 0] (3 / 2) 1
      (fun _ => Gate.mk 5 5 0)).isSome = true := by
  refine ⟨by norm_num, by simp, ?_⟩
  norm_num [run_with_coherency_population, coherency_to_drop, ratTrunc]

/-- Witness for C10: percentage `1/2` and one group on a singleton population
satisfy the preconditions; the truncation is well-defined and the
construction succeeds. -/
theorem run_with_coherency_safety_witness :
    ((0 : ℚ) ≤ 1 / 2 ∧ (1 / 2 : ℚ) ≤ 1 ∧ 1 ≤ 1) ∧
    (coherency_to_drop ([Gate.mk 5 5 0] : List Gate).length (1 / 2) ≤
        ([Gate.mk 5 5 0] : List Gate).length ∧
      (run_with_coherency_population [Gate.mk 5 5 0] (1 / 2) 1
        (fun _ => Gate.mk 5 5 0)).isSome = true) :=
  ⟨⟨by norm_num, by norm_num, le_rfl⟩,
   ⟨((run_with_coherency_safety [Gate.mk 5 5 0] (1 / 2) 1
        (fun _ => Gate.mk 5 5 0)).1 (by norm_num) (by norm_num)).1,
    ((run_with_coherency_safety [Gate.mk 5 5 0] (1 / 2) 1
        (fun _ => Gate.mk 5 5 0)).1 (by norm_num) (by norm_num)).2 le_rfl⟩⟩

/-- C9: `period()` always returns the sum of the durations, and every gate
produced by `new_random_periodic` with `max_period ≥ 11` and a ratio in
`[0,1]` — the integer period `p` drawn by `gen_range(10..max_period as i32)`,
hence `10 ≤ p < max_period` — has `low_duration = ceil((1 - high_ratio) * p)`,
`high_duration = ceil(p - (1 - high_ratio) * p)` and strictly positive
`period()`. -/
theorem new_random_periodic_spec (max_period high_ratio : ℚ) (p : ℤ) (r : ℚ)
    (hmp : 11 ≤ max_period) (hr0 : 0 ≤ high_ratio) (hr1 : high_ratio ≤ 1)
    (hp10 : 10 ≤ p) (hpmax : p < ⌊max_period⌋) :
    (∀ g : Gate, g.period = g.high_duration + g.low_duration) ∧
    ((10 : ℚ) ≤ (p : ℚ) ∧ (p : ℚ) < max_period) ∧
    (Gate.new_random_periodic p r high_ratio).low_duration
      = ((⌈(1 - high_ratio) * (p : ℚ)⌉ : ℤ) : ℚ) ∧
    (Gate.new_random_periodic p r high_ratio).high_duration
      = ((⌈(p : ℚ) - (1 - high_ratio) * (p : ℚ)⌉ : ℤ) : ℚ) ∧
    0 < (Gate.new_random_periodic p r high_ratio).period := by
  refine ⟨fun g => by rw [Gate.period]; ring, ⟨?_, ?_⟩, rfl, rfl, ?_⟩
  · exact_mod_cast hp10
  · have h1 : (p : ℚ) < (⌊max_period⌋ : ℚ) := by exact_mod_cast hpmax
    exact lt_of_lt_of_le h1 (Int.floor_le max_period)
  · have hlow := Int.le_ceil ((1 - high_ratio) * (p : ℚ))
    have hhigh := Int.le_ceil ((p : ℚ) - (1 - high_ratio) * (p : ℚ))
    have hp : (10 : ℚ) ≤ (p : ℚ) := by exact_mod_cast hp10
    simp only [Gate.new_random_periodic, Gate.period]
    linarith

/-- Witness for C9: `max_period = 11`, ratio `1/2`, drawn period `p = 10`,
start draw 0. -/
theorem new_random_periodic_spec_witness :
    ((11 : ℚ) ≤ 11 ∧ (0 : ℚ) ≤ 1 / 2 ∧ (1 / 2 : ℚ) ≤ 1 ∧ (10 : ℤ) ≤ 10 ∧
      (10 : ℤ) < ⌊(11 : ℚ)⌋) ∧
    0 < (Gate.new_random_periodic 10 0 (1 / 2)).period :=
  ⟨⟨le_rfl, by norm_num, by norm_num, le_rfl, by norm_num⟩,
   (new_random_periodic_spec 11 (1 / 2) 10 0 le_rfl (by norm_num) (by norm_num)
      le_rfl (by norm_num)).2.2.2.2⟩

/-- C8 (amended): after `randomize_start_time`, the gate at each index keeps
its high and low durations, and its start time equals `k * period / 100000`
for some integer `k` drawn from `[0, 100000)`; provided the gate's period is
positive, the new start time lies in `[0, period)`. -/
theorem randomize_start_time_spec (draws : ℕ → ℕ) (gates : List Gate) (i : ℕ)
    (hi : i < gates.length) :
    ∃ (k : ℕ) (g0 : Gate), k < 100000 ∧ gates[i]? = some g0 ∧
      (Gate.randomize_start_time draws gates)[i]? =
        some { g0 with start_time := (k : ℚ) * g0.period / 100000 } ∧
      (0 < g0.period →
        0 ≤ (k : ℚ) * g0.period / 100000 ∧
          (k : ℚ) * g0.period / 100000 < g0.period) := by
  induction gates generalizing draws i with
  | nil => exact absurd hi (Nat.not_lt_zero i)
  | cons g gs ih =>
    cases i with
    | zero =>
      refine ⟨draws 0 % 100000, g, Nat.mod_lt _ (by norm_num), by simp, by simp [Gate.randomize_start_time], ?_⟩
      intro hp
      have hk : ((draws 0 % 100000 : ℕ) : ℚ) < 100000 := by
        exact_mod_cast Nat.mod_lt (draws 0) (show 0 < 100000 by norm_num)
      have hk0 : (0 : ℚ) ≤ ((draws 0 % 100000 : ℕ) : ℚ) := Nat.cast_nonneg _
      constructor
      · positivity
      · rw [div_lt_iff₀ (show (0 : ℚ) < 100000 by norm_num)]
        nlinarith
    | succ j =>
      have hj : j < gs.length := Nat.lt_of_succ_lt_succ hi
      obtain ⟨k, g0, hk, hg0, hres, hbound⟩ := ih (fun n => draws (n + 1)) j hj
      exact ⟨k, g0, hk, by simpa using hg0, by
        simpa [Gate.randomize_start_time] using hres, hbound⟩

/-- Counterexample for C8 as stated: on a degenerate gate with zero period the
redrawn start time is 0, which does not lie in the (empty) interval
`[0, period)` — the unguarded "hence lies in `[0, period())`" fails. -/
theorem randomize_start_time_counterexample :
    ((Gate.randomize_start_time (fun _ => 0) [Gate.mk 0 0 0]).getD 0
        (Gate.mk 1 1 1)).start_time = 0 ∧
    ((Gate.randomize_start_time (fun _ => 0) [Gate.mk 0 0 0]).getD 0
        (Gate.mk 1 1 1)).period = 0 ∧
    ¬ ((Gate.randomize_start_time (fun _ => 0) [Gate.mk 0 0 0]).getD 0
        (Gate.mk 1 1 1)).start_time <
      ((Gate.randomize_start_time (fun _ => 0) [Gate.mk 0 0 0]).getD 0
        (Gate.mk 1 1 1)).period := by
  norm_num [Gate.randomize_start_time, Gate.period]

/-- Witness for C8: a singleton population with the 5/5 gate at index 0. -/
theorem randomize_start_time_spec_witness :
    0 < ([Gate.mk 5 5 0] : List Gate).length ∧
    ∃ (k : ℕ) (g0 : Gate), k < 100000 ∧
      ([Gate.mk 5 5 0] : List Gate)[0]? = some g0 ∧
      (Gate.randomize_start_time (fun _ => 250) [Gate.mk 5 5 0])[0]? =
        some { g0 with start_time := (k : ℚ) * g0.period / 100000 } ∧
      (0 < g0.period →
        0 ≤ (k : ℚ) * g0.period / 100000 ∧
          (k : ℚ) * g0.period / 100000 < g0.period) :=
  ⟨by simp,
   randomize_start_time_spec (fun _ => 250) [Gate.mk 5 5 0] 0 (by simp)⟩

/-- Closed form of the sample-point loop: starting at `t` it produces
`t, t + 1/2, t + 1, ...`, one point per unit of the termination measure. -/
theorem sampleLoop_eq_map (stop : ℚ) :
    ∀ (n : ℕ) (t : ℚ), (⌈(stop - t) * 2⌉).toNat = n →
      sampleLoop stop t = (List.range n).map (fun k : ℕ => t + (k : ℚ) / 2) := by
  intro n
  induction n with
  | zero =>
    intro t hn
    have ht : t ≥ stop := by
      by_contra hc
      push_neg at hc
      have h1 : (0 : ℚ) < (stop - t) * 2 := by linarith
      have h2 : (0 : ℤ) < ⌈(stop - t) * 2⌉ := Int.ceil_pos.mpr h1
      omega
    rw [sampleLoop, dif_pos ht]
    simp
  | succ m ih =>
    intro t hn
    have h2 : (0 : ℤ) < ⌈(stop - t) * 2⌉ := by omega
    have ht : ¬ t ≥ stop := by
      intro hc
      have h1 : (stop - t) * 2 ≤ 0 := by linarith
      have h3 : ⌈(stop - t) * 2⌉ ≤ 0 := by
        calc ⌈(stop - t) * 2⌉ ≤ ⌈(0 : ℚ)⌉ := Int.ceil_mono h1
          _ = 0 := Int.ceil_zero
      omega
    rw [sampleLoop, dif_neg ht]
    have hm : (⌈(stop - (t + 1 / 2)) * 2⌉).toNat = m := by
      have harith : (stop - (t + 1 / 2)) * 2 = (stop - t) * 2 - 1 := by ring
      have h5 : (⌈(stop - (t + 1 / 2)) * 2⌉ : ℤ) = ⌈(stop - t) * 2⌉ - 1 := by
        rw [harith]
        exact_mod_cast Int.ceil_sub_int ((stop - t) * 2) 1
      omega
    rw [ih (t + 1 / 2) hm, List.range_succ_eq_map, List.map_cons, List.map_map]
    congr 1
    · norm_num
    · apply List.map_congr_left
      intro k _
      simp only [Function.comp_apply]
      push_cast
      ring

/-- Re-randomizing start times overwrites the previous randomization: the
durations are untouched, so a second pass depends only on the original
population. -/
theorem randomize_overwrite (d2 : ℕ → ℕ) :
    ∀ (d1 : ℕ → ℕ) (gates : List Gate),
      Gate.randomize_start_time d2 (Gate.randomize_start_time d1 gates) =
        Gate.randomize_start_time d2 gates := by
  intro d1 gates
  induction gates generalizing d1 d2 with
  | nil => rfl
  | cons g gs ih =>
    simp only [Gate.randomize_start_time, List.cons.injEq]
    exact ⟨rfl, ih _ _⟩

/-- The trial loop evaluates trial `i` on the population randomized by the
`i`-th draw stream alone (earlier randomizations are overwritten), always
against the same point list. -/
theorem run_gates_trials_eq_map (points : List ℚ) :
    ∀ (n : ℕ) (draws : ℕ → ℕ → ℕ) (gates : List Gate),
      run_gates_trials points draws n gates =
        (List.range n).map (fun i =>
          Gate.evaluate_max_on_range
            (Gate.randomize_start_time (draws i) gates) points) := by
  intro n
  induction n with
  | zero =>
    intro draws gates
    rfl
  | succ m ih =>
    intro draws gates
    simp only [run_gates_trials]
    rw [ih (fun i => draws (i + 1)) (Gate.randomize_start_time (draws 0) gates),
      List.range_succ_eq_map, List.map_cons, List.map_map]
    congr 1
    apply List.map_congr_left
    intro i _
    simp only [Function.comp_apply]
    rw [randomize_overwrite]

/-- C7: the sample point set built by `run_gates` is exactly
`max_period, max_period + 1/2, max_period + 1, ...` — all values strictly
below `2 * max_period` — and it is generated once per scenario: every trial
of the loop evaluates against that same point list, not a per-trial one. -/
theorem run_gates_points_spec (gates : List Gate) :
    run_gates_points gates =
      (List.range (⌈Gate.max_period gates * 2⌉).toNat).map
        (fun k : ℕ => Gate.max_period gates + (k : ℚ) / 2) ∧
    (∀ t : ℚ, t ∈ run_gates_points gates ↔
      ∃ k : ℕ, t = Gate.max_period gates + (k : ℚ) / 2 ∧
        t < 2 * Gate.max_period gates) ∧
    (∀ (trials : ℕ) (draws : ℕ → ℕ → ℕ),
      run_gates_values gates trials draws =
        (List.range trials).map (fun i =>
          Gate.evaluate_max_on_range
            (Gate.randomize_start_time (draws i) gates)
            (run_gates_points gates))) := by
  set mp := Gate.max_period gates with hmp
  have hmeasure : (⌈(mp * 2 - mp) * 2⌉).toNat = (⌈mp * 2⌉).toNat := by
    have h : (mp * 2 - mp) * 2 = mp * 2 := by ring
    rw [h]
  have hlist : run_gates_points gates =
      (List.range (⌈mp * 2⌉).toNat).map (fun k : ℕ => mp + (k : ℚ) / 2) := by
    rw [run_gates_points, ← hmp]
    exact sampleLoop_eq_map (mp * 2) ((⌈mp * 2⌉).toNat) mp hmeasure
  refine ⟨hlist, ?_, ?_⟩
  · intro t
    rw [hlist]
    constructor
    · intro ht
      rcases List.mem_map.mp ht with ⟨k, hk, rfl⟩
      refine ⟨k, rfl, ?_⟩
      have hk2 : k < (⌈mp * 2⌉).toNat := List.mem_range.mp hk
      have hk3 : (k : ℤ) < ⌈mp * 2⌉ := by omega
      have hk4 : ¬ mp * 2 ≤ ((k : ℤ) : ℚ) := fun hc =>
        absurd (Int.ceil_le.mpr hc) (by omega)
      push_cast at hk4
      push_neg at hk4
      linarith
    · rintro ⟨k, rfl, hlt⟩
      refine List.mem_map.mpr ⟨k, List.mem_range.mpr ?_, rfl⟩
      have h2 : (k : ℚ) < mp * 2 := by linarith
      have h3 : ¬ ⌈mp * 2⌉ ≤ (k : ℤ) := fun hc => by
        have h4 := Int.ceil_le.mp hc
        push_cast at h4
        linarith
      omega
  · intro trials draws
    exact run_gates_trials_eq_map (run_gates_points gates) trials draws gates

/-- The example population has maximum period 10. -/
theorem pop4_max_period :
    Gate.max_period (List.replicate 4 (Gate.mk 5 5 0)) = 10 := by
  norm_num [Gate.max_period, List.replicate, listMax, Gate.period]

/-- The sample points of the example scenario: `[10, 20)` stepped by `1/2`. -/
theorem pop4_points :
    run_gates_points (List.replicate 4 (Gate.mk 5 5 0)) =
      [10, 21/2, 11, 23/2, 12, 25/2, 13, 27/2, 14, 29/2,
       15, 31/2, 16, 33/2, 17, 35/2, 18, 37/2, 19, 39/2] := by
  have h1 : run_gates_points (List.replicate 4 (Gate.mk 5 5 0)) =
      sampleLoop (10 * 2) 10 := by
    rw [run_gates_points, pop4_max_period]
  have h2 : (⌈((10 * 2 : ℚ) - 10) * 2⌉).toNat = 20 := by
    norm_num [show ((10 * 2 : ℚ) - 10) * 2 = ((20 : ℤ) : ℚ) by norm_num,
      Int.ceil_intCast]
    rfl
  rw [h1, sampleLoop_eq_map (10 * 2) 20 10 h2]
  norm_num [List.range_succ]

/-- Per-point overlap sums of the example scenario: 4 on `[10, 15)`, 0 on
`[15, 20)`. -/
theorem pop4_sums :
    ((run_gates_points (List.replicate 4 (Gate.mk 5 5 0))).map
      (fun tt => ((List.replicate 4 (Gate.mk 5 5 0)).map
        (fun v => v.calculate_value tt)).sum)) =
      List.replicate 10 4 ++ List.replicate 10 0 := by
  rw [pop4_points]
  norm_num [List.replicate, Gate.calculate_value, Gate.period, remEuclid, fmod,
    ratTrunc, abs_of_nonneg]

/-- C2 (amended): for the population of 4 gates with `high_duration = 5`,
`low_duration = 5`, `start_time = 0` and the sample set `[10, 20)` stepped by
`1/2`, the first ten sample points (phase in `[0, 5)`) each yield an
instantaneous sum of 4 and the last ten (phase in `[5, 10)`) each yield 0 —
not every point yields 4 — and `evaluate_max_on_range` returns exactly 4. -/
theorem scenario_example :
    Gate.max_period (List.replicate 4 (Gate.mk 5 5 0)) = 10 ∧
    run_gates_points (List.replicate 4 (Gate.mk 5 5 0)) =
      [10, 21/2, 11, 23/2, 12, 25/2, 13, 27/2, 14, 29/2,
       15, 31/2, 16, 33/2, 17, 35/2, 18, 37/2, 19, 39/2] ∧
    ((run_gates_points (List.replicate 4 (Gate.mk 5 5 0))).map
      (fun tt => ((List.replicate 4 (Gate.mk 5 5 0)).map
        (fun v => v.calculate_value tt)).sum)) =
      List.replicate 10 4 ++ List.replicate 10 0 ∧
    Gate.evaluate_max_on_range (List.replicate 4 (Gate.mk 5 5 0))
      (run_gates_points (List.replicate 4 (Gate.mk 5 5 0))) = 4 := by
  refine ⟨pop4_max_period, pop4_points, pop4_sums, ?_⟩
  unfold Gate.evaluate_max_on_range
  rw [pop4_sums]
  norm_num [List.replicate, listMax]

/-- Counterexample for C2 as stated: `15` is one of the scenario's sample
points, yet the instantaneous sum there is 0, not 4 — the phase of each gate
at `t = 15` is 5, which is not below `high_duration = 5`. -/
theorem scenario_counterexample :
    (15 : ℚ) ∈ run_gates_points (List.replicate 4 (Gate.mk 5 5 0)) ∧
    ((List.replicate 4 (Gate.mk 5 5 0)).map
      (fun v => v.calculate_value (15 : ℚ))).sum = 0 := by
  constructor
  · rw [pop4_points]
    norm_num
  · norm_num [List.replicate, Gate.calculate_value, Gate.period, remEuclid,
      fmod, ratTrunc, abs_of_nonneg]

end Interferon
